import Mathlib

/-
Verification of the expression-tree library `expressions/expressions.py`:
a node data model (Terminal / Operator classes), arithmetic construction
methods, precedence-driven rendering, and a stack-based memoized postorder
visitor (`postvisitor`).

The embedding is split in two faithful views of the same source:

* a plain inductive `Expression` tree for construction and rendering claims,
  where object identity plays no role; and
* an arena view (`Graph`, nodes addressed by `Nat` indices standing for
  Python object identity) for the visitor claims, since `postvisitor`
  memoizes on object identity and must handle DAG sharing.  The arena is
  append-only, so children always have smaller indices than their parents,
  mirroring the fact that operands exist before the operator referencing
  them is constructed.

Python values that can flow into the library are modelled by `PyVal`
(ints, bools, floats, strings, None); a float payload is carried as its
display text, since no claim computes with float arithmetic.  Python
exceptions are modelled by `PyError`; the source raises `ValueError` in
`Number.__init__` and `Symbol.__init__`, and caller-supplied combining
functions in the tests raise `KeyError` on unbound symbols.
-/

set_option autoImplicit false

namespace Expressions

/-- Python scalar values relevant to the library: `isinstance` checks in the
source distinguish `(int, float)` (with `bool` a subclass of `int`) and
`str`.  `noneV` stands for any other (non-numeric, non-text) payload. -/
inductive PyVal where
  | intV (i : Int)
  | boolV (b : Bool)
  | floatV (display : String)
  | strV (s : String)
  | noneV
  deriving DecidableEq

/-- `isinstance(value, (int, float))` — true for ints, floats and bools,
because Python `bool` is a subclass of `int`. -/
def PyVal.isNumeric : PyVal → Bool
  | .intV _ => true
  | .boolV _ => true
  | .floatV _ => true
  | _ => false

/-- `isinstance(value, str)`. -/
def PyVal.isStr : PyVal → Bool
  | .strV _ => true
  | _ => false

/-- Python `str(value)` for terminal payloads. -/
def PyVal.pyStr : PyVal → String
  | .intV i => toString i
  | .boolV b => if b then ("True") else ("False")
  | .floatV d => d
  | .strV s => s
  | .noneV => ("None")

/-- Python exceptions that appear in the library and its tests:
`ValueError` is what `Number.__init__` / `Symbol.__init__` raise,
`KeyError` is the lookup failure a combining function raises on an
unbound symbol, `TypeError` is the distinct Python builtin the spec
names (never raised by this source). -/
inductive PyError where
  | valueError (msg : String)
  | typeError (msg : String)
  | keyError (msg : String)
  deriving DecidableEq

/-- Whether an exception is a Python `TypeError`. -/
def PyError.isTypeError : PyError → Bool
  | .typeError _ => true
  | _ => false

/-- The five Operator subclasses. -/
inductive OpKind where
  | add
  | sub
  | mul
  | div
  | pow
  deriving DecidableEq

/-- The `precedence` class attribute of each Operator subclass. -/
def OpKind.precedence : OpKind → Nat
  | .add => 1
  | .sub => 1
  | .mul => 2
  | .div => 2
  | .pow => 3

/-- The `symbol` class attribute of each Operator subclass. -/
def OpKind.symbol : OpKind → String
  | .add => ("+")
  | .sub => ("-")
  | .mul => ("*")
  | .div => ("/")
  | .pow => ("^")

/-- A precedence value: operators have finite precedence, terminals have
`float(&inf&)` (written `inf` here). -/
inductive PrecVal where
  | fin (n : Nat)
  | inf
  deriving DecidableEq

/-- The numeric `<` comparison used in `Operator.__str__`; `inf` compares
greater than every finite precedence. -/
def PrecVal.lt : PrecVal → PrecVal → Bool
  | .fin a, .fin b => a < b
  | .inf, _ => false
  | .fin _, .inf => true

/-- Expression trees: `number` and `symbol` are the two Terminal
subclasses (payload already validated), `operator` covers the five
Operator subclasses with their two ordered operands. -/
inductive Expression where
  | number (value : PyVal)
  | symbol (value : String)
  | operator (kind : OpKind) (left right : Expression)
  deriving DecidableEq

/-- The `Add` class constructor applied to two expression operands. -/
def Add (l r : Expression) : Expression := .operator .add l r

/-- The `Sub` class constructor applied to two expression operands. -/
def Sub (l r : Expression) : Expression := .operator .sub l r

/-- The `Mul` class constructor applied to two expression operands. -/
def Mul (l r : Expression) : Expression := .operator .mul l r

/-- The `Div` class constructor applied to two expression operands. -/
def Div (l r : Expression) : Expression := .operator .div l r

/-- The `Pow` class constructor applied to two expression operands. -/
def Pow (l r : Expression) : Expression := .operator .pow l r

/-- `Number.__init__`: raises `ValueError` unless the payload is
`isinstance(value, (int, float))`; otherwise stores the payload. -/
def Number (value : PyVal) : Except PyError Expression :=
  if value.isNumeric then .ok (.number value)
  else .error (.valueError ("Number value must be a numeric type."))

/-- `Symbol.__init__`: raises `ValueError` unless the payload is
`isinstance(value, str)`; otherwise stores the payload. -/
def Symbol (value : PyVal) : Except PyError Expression :=
  match value with
  | .strV s => .ok (.symbol s)
  | _ => .error (.valueError ("Symbol value must be a string."))

/-- Whether a node is a Terminal (a `number` or `symbol` leaf). -/
def Expression.isTerminal : Expression → Bool
  | .operator .. => false
  | _ => true

/-- The `precedence` attribute looked up on a node: the class attribute of
the Operator subclass, or `float(&inf&)` for Terminals. -/
def Expression.precedence : Expression → PrecVal
  | .operator k _ _ => .fin k.precedence
  | _ => .inf

/-- `__str__`: Terminals render as `str(value)`; an Operator renders each
child, parenthesizing it iff the child precedence is strictly lower than
its own, and joins the two rendered children with spaces around its
symbol. -/
def Expression.str : Expression → String
  | .number v => v.pyStr
  | .symbol s => s
  | .operator k l r =>
      (if (Expression.precedence l).lt (.fin k.precedence)
        then ("(") ++ Expression.str l ++ (")") else Expression.str l)
      ++ (" ") ++ k.symbol ++ (" ") ++
      (if (Expression.precedence r).lt (.fin k.precedence)
        then ("(") ++ Expression.str r ++ (")") else Expression.str r)

/-- A Python value handed to one of the arithmetic dunder methods: either
an `Expression` instance or a raw value that will be coerced through
`Number`. -/
inductive PyObject where
  | node (e : Expression)
  | raw (v : PyVal)

/-- `other if isinstance(other, Expression) else Number(other)` — the
coercion every forward dunder method applies to its right operand. -/
def coerceOperand : PyObject → Except PyError Expression
  | .node e => .ok e
  | .raw v => Number v

/-- `Expression.__add__`. -/
def Expression.add (self : Expression) (other : PyObject) : Except PyError Expression :=
  (coerceOperand other).map (fun o => Add self o)

/-- `Expression.__radd__`: `return self + other`. -/
def Expression.radd (self : Expression) (other : PyVal) : Except PyError Expression :=
  self.add (.raw other)

/-- `Expression.__sub__`. -/
def Expression.sub (self : Expression) (other : PyObject) : Except PyError Expression :=
  (coerceOperand other).map (fun o => Sub self o)

/-- `Expression.__rsub__`: `return Sub(Number(other), self)`. -/
def Expression.rsub (self : Expression) (other : PyVal) : Except PyError Expression :=
  (Number other).map (fun n => Sub n self)

/-- `Expression.__mul__`. -/
def Expression.mul (self : Expression) (other : PyObject) : Except PyError Expression :=
  (coerceOperand other).map (fun o => Mul self o)

/-- `Expression.__rmul__`: `return self * other`. -/
def Expression.rmul (self : Expression) (other : PyVal) : Except PyError Expression :=
  self.mul (.raw other)

/-- `Expression.__truediv__`. -/
def Expression.truediv (self : Expression) (other : PyObject) : Except PyError Expression :=
  (coerceOperand other).map (fun o => Div self o)

/-- `Expression.__rtruediv__`: `return Div(Number(other), self)`. -/
def Expression.rtruediv (self : Expression) (other : PyVal) : Except PyError Expression :=
  (Number other).map (fun n => Div n self)

/-- `Expression.__pow__`. -/
def Expression.pow (self : Expression) (other : PyObject) : Except PyError Expression :=
  (coerceOperand other).map (fun o => Pow self o)

/-- `Expression.__rpow__`: `return Pow(Number(other), self)`. -/
def Expression.rpow (self : Expression) (other : PyVal) : Except PyError Expression :=
  (Number other).map (fun n => Pow n self)

/-
The arena view used by the visitor claims.  A `Graph` is the set of live
node objects; the index of a node in the arena stands for its Python
object identity (`postvisitor` keys its `visited` dict on identity, since
`Expression` defines neither `__eq__` nor `__hash__`).  Sharing a node as
an operand of two parents is expressed by repeating its index.
-/

/-- The data of one node object: a Terminal payload or an Operator kind
with the identities of its two ordered operands. -/
inductive NodeData where
  | number (value : PyVal)
  | symbol (value : String)
  | op (kind : OpKind) (left right : Nat)
  deriving DecidableEq

/-- `node.operands` as identities: `()` for Terminals, `(left, right)` for
Operators. -/
def NodeData.childIds : NodeData → List Nat
  | .number _ => []
  | .symbol _ => []
  | .op _ a b => [a, b]

/-- An arena of node objects; indices are object identities. -/
structure Graph where
  nodes : List NodeData

/-- The operand identities of node `n` (empty for an index with no node,
which never arises on runs from a valid root). -/
def Graph.operands (g : Graph) (n : Nat) : List Nat :=
  match g.nodes.get? n with
  | some d => d.childIds
  | none => []

/-- Well-formedness of the arena: every operand was constructed before the
operator referencing it, i.e. children have strictly smaller indices.
This is the acyclicity invariant the construction protocol guarantees. -/
def Graph.Wf (g : Graph) : Prop :=
  ∀ n d, g.nodes.get? n = some d → ∀ c ∈ d.childIds, c < n

/-- Executable well-formedness check for concrete graphs. -/
def Graph.wfCheck (g : Graph) : Bool :=
  (List.range g.nodes.length).all (fun i => (g.operands i).all (fun c => c < i))

/-- One recorded invocation of the combining function `fn`: the node (by
identity), the positional operand results, the keyword arguments and the
returned result. -/
structure Call (R K : Type) where
  node : Nat
  args : List R
  kw : K
  result : R

/-- Lookup in the memo table (`visited` in the source), here stored
newest-first; identity-keyed like the Python dict. -/
def lookupV {R K : Type} : List (Call R K) → Nat → Option R
  | [], _ => none
  | c :: rest, n => if c.node = n then some c.result else lookupV rest n

/-- The `while stack:` loop of `postvisitor`, made total with a fuel
parameter (`none` = fuel exhausted; the source loop runs unboundedly).
State: the explicit work stack (head = top) and the memo table of
completed `fn` calls, newest first.  Each iteration pops one node; a node
already visited is discarded; a node whose operands are all visited is
combined by `fn` (an exception from `fn` aborts the whole traversal with
that error); otherwise the node is pushed back under its not-yet-visited
operands, in operand order.  An empty stack returns the memo table. -/
def pvLoop {R K : Type} (g : Graph) (fn : Nat → List R → K → Except PyError R) (kw : K) :
    Nat → List Nat → List (Call R K) → Option (Except PyError (List (Call R K)))
  | _, [], calls => some (.ok calls)
  | 0, _ :: _, _ => none
  | fuel + 1, n :: stack, calls =>
      if (lookupV calls n).isSome then
        pvLoop g fn kw fuel stack calls
      else
        if (g.operands n).all (fun c => (lookupV calls c).isSome) then
          match fn n ((g.operands n).filterMap (lookupV calls)) kw with
          | .error e => some (.error e)
          | .ok r =>
              pvLoop g fn kw fuel stack
                (⟨n, (g.operands n).filterMap (lookupV calls), kw, r⟩ :: calls)
        else
          pvLoop g fn kw fuel
            (((g.operands n).filter (fun c => (lookupV calls c).isNone)) ++ n :: stack)
            calls

/-- `postvisitor(expr, fn, **kwargs)` run with the given fuel, also
exposing the recorded `fn` invocations.  The source seeds the stack with
the root and finally returns `visited[expr]`. -/
def postvisitorCalls {R K : Type} (g : Graph) (fn : Nat → List R → K → Except PyError R)
    (kw : K) (root fuel : Nat) : Option (Except PyError (List (Call R K))) :=
  pvLoop g fn kw fuel [root] []

/-- `postvisitor(expr, fn, **kwargs)`: the final `return visited[expr]`.
`none` covers a run out of fuel (the source would still be looping). -/
def postvisitor {R K : Type} (g : Graph) (fn : Nat → List R → K → Except PyError R)
    (kw : K) (root fuel : Nat) : Option (Except PyError R) :=
  match pvLoop g fn kw fuel [root] [] with
  | none => none
  | some (.error e) => some (.error e)
  | some (.ok calls) => (lookupV calls root).map .ok

/-
Concrete combining functions and graphs used by the spec's testable
properties.  `evalFn` is the test's arithmetic evaluator: literal values
for Number nodes, arithmetic for the five operators.  `evalFnStrict` only
knows Number nodes and raises `KeyError` on an unbound Symbol.
-/

/-- Arithmetic meaning of each operator kind on integers (the payloads
used by every test in the spec are small non-negative integers). -/
def applyOp (k : OpKind) (a b : Int) : Int :=
  match k with
  | .add => a + b
  | .sub => a - b
  | .mul => a * b
  | .div => a / b
  | .pow => a ^ b.toNat

/-- The evaluation a combining function performs at one node, given the
already-computed operand results. -/
def evalNode (g : Graph) (n : Nat) (args : List Int) : Int :=
  match g.nodes.get? n, args with
  | some (.number (.intV i)), _ => i
  | some (.op k _ _), [a, b] => applyOp k a b
  | _, _ => 0

/-- A total combining function evaluating Add/Sub/Mul/Div/Pow
arithmetically and returning literal values for Number nodes. -/
def evalFn (g : Graph) : Nat → List Int → Unit → Except PyError Int :=
  fun n args _ => .ok (evalNode g n args)

/-- A combining function that only knows how to evaluate Number nodes and
raises a `KeyError` when it reaches a Symbol with no bound value. -/
def evalFnStrict (g : Graph) : Nat → List Int → Unit → Except PyError Int :=
  fun n args _ =>
    match g.nodes.get? n with
    | some (.symbol s) => .error (.keyError s)
    | _ => .ok (evalNode g n args)

/-- The sharing test graph: `s = Number(5) + Number(1)` (node 2, with
operand objects 0 and 1) used as both operands of `Mul(s, s)` (node 3,
whose operand list repeats identity 2). -/
def gShared : Graph :=
  ⟨[.number (.intV 5), .number (.intV 1), .op .add 0 1, .op .mul 2 2]⟩

/-- Two structurally equal but distinct `Number(5)` objects (nodes 0 and
1) under one Add (node 2). -/
def gTwin : Graph :=
  ⟨[.number (.intV 5), .number (.intV 5), .op .add 0 1]⟩

/-- The evaluation test graph `Number(2) + Number(3) * Number(4)`: Python
precedence builds `Add(Number(2), Mul(Number(3), Number(4)))`. -/
def g238 : Graph :=
  ⟨[.number (.intV 2), .number (.intV 3), .number (.intV 4), .op .mul 1 2, .op .add 0 3]⟩

/-- The symbol-failure test graph `Number(2) + Symbol(x)`. -/
def gSym : Graph := ⟨[.number (.intV 2), .symbol ("x"), .op .add 0 1]⟩

/-- Arena of the right-leaning chain with `n` Add nodes over `Number(1)`:
node `0` is the innermost leaf, and stage `k + 1` appends a fresh leaf
(index `2k + 1`) and the Add node `2k + 2` whose right operand is the
previous chain root `2k`. -/
def chainNodes : Nat → List NodeData
  | 0 => [.number (.intV 1)]
  | n + 1 => chainNodes n ++ [.number (.intV 1), .op .add (2 * n + 1) (2 * n)]

/-- The chain graph with `n` Add nodes; its root is node `2n`. -/
def chainGraph (n : Nat) : Graph := ⟨chainNodes n⟩

/-- Closed form of the chain arena entry at index `i`: even indices other
than 0 are the Add nodes, everything else is a `Number(1)` leaf. -/
def chainData (i : Nat) : NodeData :=
  if i % 2 = 0 ∧ i ≠ 0 then .op .add (i - 1) (i - 2) else .number (.intV 1)

/-- Value of each chain node under arithmetic evaluation: the Add node
`2k` (and the leaf `0`) evaluates to `k + 1`, fresh leaves to `1`. -/
def chainVal (i : Nat) : Int :=
  if i % 2 = 1 then 1 else (i / 2 : Nat) + 1

/-
Memo-table lemmas.
-/

theorem lookupV_isSome_iff {R K : Type} (l : List (Call R K)) (n : Nat) :
    (lookupV l n).isSome = true ↔ ∃ c ∈ l, c.node = n := by
  induction l with
  | nil => simp [lookupV]
  | cons c rest ih =>
      by_cases h : c.node = n
      · simp [lookupV, h]
      · simp only [lookupV, if_neg h, ih, List.mem_cons]
        constructor
        · rintro ⟨d, hd, hdn⟩
          exact ⟨d, Or.inr hd, hdn⟩
        · rintro ⟨d, hd | hd, hdn⟩
          · exact absurd (hd ▸ hdn) h
          · exact ⟨d, hd, hdn⟩

theorem lookupV_eq_none_iff {R K : Type} (l : List (Call R K)) (n : Nat) :
    lookupV l n = none ↔ ∀ c ∈ l, c.node ≠ n := by
  rw [← Option.not_isSome_iff_eq_none]
  simp only [lookupV_isSome_iff]
  push_neg
  exact Iff.rfl

theorem lookupV_mem {R K : Type} {l : List (Call R K)} {n : Nat} {r : R}
    (h : lookupV l n = some r) : ∃ c ∈ l, c.node = n ∧ c.result = r := by
  induction l with
  | nil => simp [lookupV] at h
  | cons c rest ih =>
      by_cases hc : c.node = n
      · rw [lookupV, if_pos hc] at h
        exact ⟨c, List.mem_cons_self c rest, hc, Option.some_injective _ h⟩
      · rw [lookupV, if_neg hc] at h
        obtain ⟨d, hd, hdn, hdr⟩ := ih h
        exact ⟨d, List.mem_cons_of_mem _ hd, hdn, hdr⟩

theorem lookupV_append_left_none {R K : Type} {a : List (Call R K)} (b : List (Call R K))
    {n : Nat} (h : lookupV a n = none) : lookupV (a ++ b) n = lookupV b n := by
  induction a with
  | nil => simp
  | cons c rest ih =>
      by_cases hc : c.node = n
      · rw [lookupV, if_pos hc] at h
        exact absurd h (by simp)
      · rw [lookupV, if_neg hc] at h
        rw [List.cons_append, lookupV, if_neg hc]
        exact ih h

theorem lookupV_append_isSome {R K : Type} (a : List (Call R K)) {b : List (Call R K)}
    {n : Nat} (h : (lookupV b n).isSome = true) : (lookupV (a ++ b) n).isSome = true := by
  induction a with
  | nil => simpa using h
  | cons c rest ih =>
      by_cases hc : c.node = n
      · rw [List.cons_append, lookupV, if_pos hc]
        rfl
      · rw [List.cons_append, lookupV, if_neg hc]
        exact ih

theorem lookupV_cons_isSome {R K : Type} (c : Call R K) (l : List (Call R K))
    {n : Nat} (h : (lookupV l n).isSome = true) : (lookupV (c :: l) n).isSome = true := by
  by_cases hc : c.node = n
  · rw [lookupV, if_pos hc]
    rfl
  · rw [lookupV, if_neg hc]
    exact h

/-- When every operand is in the memo, `filterMap` produces exactly the
list of cached results, positionally aligned with the operand list. -/
theorem forall₂_filterMap_lookupV {R K : Type} (calls : List (Call R K)) :
    ∀ ops : List Nat, (ops.all (fun c => (lookupV calls c).isSome)) = true →
      List.Forall₂ (fun o a => lookupV calls o = some a) ops
        (ops.filterMap (lookupV calls)) := by
  intro ops
  induction ops with
  | nil => intro _; simp
  | cons o rest ih =>
      intro h
      rw [List.all_cons, Bool.and_eq_true] at h
      obtain ⟨r, hr⟩ := Option.isSome_iff_exists.mp h.1
      rw [List.filterMap_cons, hr]
      exact List.Forall₂.cons hr (ih h.2)

/-- Invariant of the memo table (stored newest-first): every recorded
invocation received the caller's keyword arguments unchanged, was on a
node not previously combined, received exactly the cached results of the
node's operands (all computed strictly earlier) positionally in operand
order, and returned normally with the recorded result. -/
def Coherent {R K : Type} (g : Graph) (fn : Nat → List R → K → Except PyError R) (kw : K) :
    List (Call R K) → Prop
  | [] => True
  | c :: older =>
      c.kw = kw ∧
      lookupV older c.node = none ∧
      List.Forall₂ (fun o a => lookupV older o = some a) (g.operands c.node) c.args ∧
      fn c.node c.args c.kw = .ok c.result ∧
      Coherent g fn kw older

/-- The loop only appends new `fn` results in front of the memo table. -/
theorem pvLoop_extends {R K : Type} (g : Graph) (fn : Nat → List R → K → Except PyError R)
    (kw : K) :
    ∀ fuel stack calls final, pvLoop g fn kw fuel stack calls = some (.ok final) →
      ∃ added, final = added ++ calls := by
  intro fuel
  induction fuel with
  | zero =>
      intro stack calls final h
      match stack with
      | [] =>
          rw [pvLoop] at h
          exact ⟨[], by simpa using (Option.some_injective _ h).symm⟩
      | n :: stack => rw [pvLoop] at h; exact absurd h (by simp)
  | succ fuel ih =>
      intro stack calls final h
      match stack with
      | [] =>
          rw [pvLoop] at h
          exact ⟨[], by simpa using (Option.some_injective _ h).symm⟩
      | n :: stack =>
          rw [pvLoop] at h
          by_cases hv : (lookupV calls n).isSome = true
          · rw [if_pos hv] at h
            exact ih stack calls final h
          · rw [if_neg hv] at h
            by_cases hr : ((g.operands n).all (fun c => (lookupV calls c).isSome)) = true
            · rw [if_pos hr] at h
              rcases hfn : fn n ((g.operands n).filterMap (lookupV calls)) kw with e | r
              · rw [hfn] at h
                exact absurd h (by simp)
              · rw [hfn] at h
                obtain ⟨added, hadd⟩ := ih _ _ _ h
                exact ⟨added ++ [⟨n, (g.operands n).filterMap (lookupV calls), kw, r⟩],
                  by simpa using hadd⟩
            · rw [if_neg hr] at h
              exact ih _ _ _ h

/-- Every node on the work stack ends up in the memo table when the loop
drains the stack normally. -/
theorem pvLoop_stack_isSome {R K : Type} (g : Graph) (fn : Nat → List R → K → Except PyError R)
    (kw : K) :
    ∀ fuel stack calls final, pvLoop g fn kw fuel stack calls = some (.ok final) →
      ∀ n ∈ stack, (lookupV final n).isSome = true := by
  intro fuel
  induction fuel with
  | zero =>
      intro stack calls final h n hn
      match stack with
      | [] => simp at hn
      | m :: stack => rw [pvLoop] at h; exact absurd h (by simp)
  | succ fuel ih =>
      intro stack calls final h n hn
      match stack with
      | [] => simp at hn
      | m :: stack =>
          rw [pvLoop] at h
          by_cases hv : (lookupV calls m).isSome = true
          · rw [if_pos hv] at h
            rcases List.mem_cons.mp hn with rfl | hn
            · obtain ⟨added, rfl⟩ := pvLoop_extends g fn kw _ _ _ _ h
              exact lookupV_append_isSome added hv
            · exact ih stack calls final h n hn
          · rw [if_neg hv] at h
            by_cases hr : ((g.operands m).all (fun c => (lookupV calls c).isSome)) = true
            · rw [if_pos hr] at h
              rcases hfn : fn m ((g.operands m).filterMap (lookupV calls)) kw with e | r
              · rw [hfn] at h
                exact absurd h (by simp)
              · rw [hfn] at h
                rcases List.mem_cons.mp hn with rfl | hn
                · obtain ⟨added, rfl⟩ := pvLoop_extends g fn kw _ _ _ _ h
                  refine lookupV_append_isSome added ?_
                  rw [lookupV, if_pos rfl]
                  rfl
                · exact ih _ _ _ h n hn
            · rw [if_neg hr] at h
              refine ih _ _ _ h n ?_
              rcases List.mem_cons.mp hn with rfl | hn
              · exact List.mem_append_right _ (List.mem_cons_self _ _)
              · exact List.mem_append_right _ (List.mem_cons_of_mem _ hn)

/-- The loop preserves memo coherence: if it starts from a coherent memo
table and drains its stack, the final table is coherent. -/
theorem pvLoop_coherent {R K : Type} (g : Graph) (fn : Nat → List R → K → Except PyError R)
    (kw : K) :
    ∀ fuel stack calls final, pvLoop g fn kw fuel stack calls = some (.ok final) →
      Coherent g fn kw calls → Coherent g fn kw final := by
  intro fuel
  induction fuel with
  | zero =>
      intro stack calls final h hc
      match stack with
      | [] =>
          rw [pvLoop] at h
          have : calls = final := by simpa using Option.some_injective _ h
          exact this ▸ hc
      | n :: stack => rw [pvLoop] at h; exact absurd h (by simp)
  | succ fuel ih =>
      intro stack calls final h hc
      match stack with
      | [] =>
          rw [pvLoop] at h
          have : calls = final := by simpa using Option.some_injective _ h
          exact this ▸ hc
      | n :: stack =>
          rw [pvLoop] at h
          by_cases hv : (lookupV calls n).isSome = true
          · rw [if_pos hv] at h
            exact ih stack calls final h hc
          · rw [if_neg hv] at h
            by_cases hr : ((g.operands n).all (fun c => (lookupV calls c).isSome)) = true
            · rw [if_pos hr] at h
              rcases hfn : fn n ((g.operands n).filterMap (lookupV calls)) kw with e | r
              · rw [hfn] at h
                exact absurd h (by simp)
              · rw [hfn] at h
                refine ih _ _ _ h ?_
                refine ⟨rfl, ?_, ?_, hfn, hc⟩
                · exact Option.not_isSome_iff_eq_none.mp hv
                · exact forall₂_filterMap_lookupV calls _ hr
            · rw [if_neg hr] at h
              exact ih _ _ _ h hc

/-- A coherent memo table mentions each node identity at most once. -/
theorem Coherent.nodup {R K : Type} {g : Graph} {fn : Nat → List R → K → Except PyError R}
    {kw : K} : ∀ {calls : List (Call R K)}, Coherent g fn kw calls →
      (calls.map (fun c => c.node)).Nodup := by
  intro calls
  induction calls with
  | nil => intro _; simp
  | cons c older ih =>
      intro hc
      obtain ⟨_, hnone, _, _, holder⟩ := hc
      refine List.Nodup.cons ?_ (ih holder)
      intro hmem
      obtain ⟨d, hd, hdn⟩ := List.mem_map.mp hmem
      exact (lookupV_eq_none_iff older c.node).mp hnone d hd hdn

/-- Coherence restricts to any suffix of the memo table (the memo as it
stood at an earlier point of the traversal). -/
theorem Coherent.suffix {R K : Type} {g : Graph} {fn : Nat → List R → K → Except PyError R}
    {kw : K} : ∀ {pre post : List (Call R K)}, Coherent g fn kw (pre ++ post) →
      Coherent g fn kw post := by
  intro pre
  induction pre with
  | nil => intro post h; exact h
  | cons c rest ih =>
      intro post h
      exact ih h.2.2.2.2

theorem forall₂_exists_of_mem {α β : Type} {P : α → β → Prop} :
    ∀ {l₁ : List α} {l₂ : List β}, List.Forall₂ P l₁ l₂ → ∀ {o : α}, o ∈ l₁ →
      ∃ a ∈ l₂, P o a := by
  intro l₁
  induction l₁ with
  | nil => intro l₂ _ o ho; simp at ho
  | cons x rest ih =>
      intro l₂ h o ho
      rcases h with _ | ⟨hx, hrest⟩
      rcases List.mem_cons.mp ho with rfl | ho
      · exact ⟨_, List.mem_cons_self _ _, hx⟩
      · obtain ⟨a, ha, hpa⟩ := ih hrest ho
        exact ⟨a, List.mem_cons_of_mem _ ha, hpa⟩

/-- In a table without duplicate nodes, a hit in a suffix is a hit in the
whole table with the same cached value. -/
theorem lookupV_of_suffix {R K : Type} :
    ∀ (pre : List (Call R K)) {post : List (Call R K)} {o : Nat} {a : R},
      ((pre ++ post).map (fun c => c.node)).Nodup → lookupV post o = some a →
        lookupV (pre ++ post) o = some a := by
  intro pre
  induction pre with
  | nil => intro post o a _ h; simpa using h
  | cons c rest ih =>
      intro post o a hnd h
      rw [List.cons_append, List.map_cons, List.nodup_cons] at hnd
      have hco : c.node ≠ o := by
        intro heq
        obtain ⟨d, hd, hdn, _⟩ := lookupV_mem h
        exact hnd.1 (List.mem_map.mpr ⟨d, List.mem_append_right _ hd, hdn.trans heq.symm⟩)
      rw [List.cons_append, lookupV, if_neg hco]
      exact ih hnd.2 h

/-- The ordering guarantee: inside a coherent memo table, every operand of
a combined node was itself combined strictly earlier (it sits in the
older suffix of the table). -/
theorem Coherent.operands_earlier {R K : Type} {g : Graph}
    {fn : Nat → List R → K → Except PyError R} {kw : K} {calls : List (Call R K)}
    (hc : Coherent g fn kw calls) {pre post : List (Call R K)} {c : Call R K}
    (hdec : calls = pre ++ c :: post) :
    ∀ o ∈ g.operands c.node, (lookupV post o).isSome = true := by
  intro o ho
  have hsuf : Coherent g fn kw (c :: post) := Coherent.suffix (hdec ▸ hc)
  obtain ⟨a, _, hpa⟩ := forall₂_exists_of_mem hsuf.2.2.1 ho
  rw [hpa]
  rfl

/-- Sharing: in a coherent table each recorded call received, for each of
its operands positionally, exactly the unique cached result that the
whole table holds for that operand. -/
theorem Coherent.args_cached {R K : Type} {g : Graph}
    {fn : Nat → List R → K → Except PyError R} {kw : K} {calls : List (Call R K)}
    (hc : Coherent g fn kw calls) :
    ∀ c ∈ calls, List.Forall₂ (fun o a => lookupV calls o = some a)
      (g.operands c.node) c.args := by
  intro c hcmem
  obtain ⟨pre, post, rfl⟩ := List.append_of_mem hcmem
  have hsuf : Coherent g fn kw (c :: post) := Coherent.suffix hc
  refine List.Forall₂.imp ?_ hsuf.2.2.1
  intro o a hpa
  have : lookupV (c :: post) o = some a := by
    by_cases hco : c.node = o
    · exfalso
      obtain ⟨d, hd, hdn, _⟩ := lookupV_mem hpa
      exact (lookupV_eq_none_iff post c.node).mp hsuf.2.1 d hd (hdn.trans hco.symm)
    · rw [lookupV, if_neg hco]
      exact hpa
  exact lookupV_of_suffix pre (Coherent.nodup hc) this

/-
Termination of the loop on well-formed (acyclic) arenas: processing any
single node consumes a computable amount of fuel and installs that node
in the memo table, touching only identities at or below it.
-/

/-- Processing obligation for one node `m`: from any state whose stack
starts at `m`, some finite fuel brings the loop exactly to the rest of
the stack, having prepended finished calls only for identities `≤ m`,
with `m` itself now memoized. -/
def ProcessOne {R K : Type} (g : Graph) (fn : Nat → List R → K → Except PyError R)
    (kw : K) (m : Nat) : Prop :=
  ∀ stack calls, ∃ f added,
    (∀ rest, pvLoop g fn kw (f + rest) (m :: stack) calls =
      pvLoop g fn kw rest stack (added ++ calls)) ∧
    (∀ c ∈ added, c.node ≤ m) ∧
    (lookupV (added ++ calls) m).isSome = true

theorem runList {R K : Type} (g : Graph) (fn : Nat → List R → K → Except PyError R) (kw : K) :
    ∀ L : List Nat, (∀ m ∈ L, ProcessOne g fn kw m) →
      ∀ stack calls, ∃ f added,
        (∀ rest, pvLoop g fn kw (f + rest) (L ++ stack) calls =
          pvLoop g fn kw rest stack (added ++ calls)) ∧
        (∀ c ∈ added, ∃ m ∈ L, c.node ≤ m) ∧
        (∀ m ∈ L, (lookupV (added ++ calls) m).isSome = true) := by
  intro L
  induction L with
  | nil =>
      intro _ stack calls
      exact ⟨0, [], fun rest => by rw [Nat.zero_add]; rfl, by simp, by simp⟩
  | cons m L ih =>
      intro hP stack calls
      obtain ⟨f₁, a₁, hrun₁, hbd₁, hm₁⟩ := hP m (List.mem_cons_self _ _) (L ++ stack) calls
      obtain ⟨f₂, a₂, hrun₂, hbd₂, hm₂⟩ :=
        ih (fun x hx => hP x (List.mem_cons_of_mem _ hx)) stack (a₁ ++ calls)
      refine ⟨f₁ + f₂, a₂ ++ a₁, ?_, ?_, ?_⟩
      · intro rest
        have h1 := hrun₁ (f₂ + rest)
        have h2 := hrun₂ rest
        calc pvLoop g fn kw (f₁ + f₂ + rest) ((m :: L) ++ stack) calls
            = pvLoop g fn kw (f₁ + (f₂ + rest)) (m :: (L ++ stack)) calls := by
              rw [Nat.add_assoc]; rfl
          _ = pvLoop g fn kw (f₂ + rest) (L ++ stack) (a₁ ++ calls) := h1
          _ = pvLoop g fn kw rest stack (a₂ ++ (a₁ ++ calls)) := h2
          _ = pvLoop g fn kw rest stack ((a₂ ++ a₁) ++ calls) := by rw [List.append_assoc]
      · intro c hcmem
        rcases List.mem_append.mp hcmem with hc | hc
        · obtain ⟨x, hx, hxle⟩ := hbd₂ c hc
          exact ⟨x, List.mem_cons_of_mem _ hx, hxle⟩
        · exact ⟨m, List.mem_cons_self _ _, hbd₁ c hc⟩
      · intro x hx
        rcases List.mem_cons.mp hx with rfl | hx
        · rw [List.append_assoc]
          exact lookupV_append_isSome a₂ hm₁
        · rw [List.append_assoc]
          exact hm₂ x hx

/-- On a well-formed arena, every node can be fully processed when the
combining function returns normally on all inputs. -/
theorem runFrom {R K : Type} (g : Graph) (fn : Nat → List R → K → Except PyError R) (kw : K)
    (hwf : g.Wf) (hfn : ∀ n args, ∃ r, fn n args kw = .ok r) :
    ∀ n, ProcessOne g fn kw n := by
  intro n
  induction n using Nat.strong_induction_on with
  | _ n ih =>
      intro stack calls
      by_cases hv : (lookupV calls n).isSome = true
      · refine ⟨1, [], ?_, by simp, by simpa using hv⟩
        intro rest
        have : (1 : Nat) + rest = rest + 1 := Nat.add_comm 1 rest
        rw [this, pvLoop, if_pos hv]
        rfl
      · by_cases hr : ((g.operands n).all (fun c => (lookupV calls c).isSome)) = true
        · obtain ⟨r, hfnr⟩ := hfn n ((g.operands n).filterMap (lookupV calls))
          refine ⟨1, [⟨n, (g.operands n).filterMap (lookupV calls), kw, r⟩], ?_, ?_, ?_⟩
          · intro rest
            have : (1 : Nat) + rest = rest + 1 := Nat.add_comm 1 rest
            rw [this, pvLoop, if_neg hv, if_pos hr, hfnr]
            rfl
          · intro c hc
            rcases List.mem_singleton.mp hc with rfl
            exact Nat.le_refl n
          · rw [List.singleton_append, lookupV, if_pos rfl]
            rfl
        · -- two-phase requeue: push the unvisited operands, process them
          -- with the strong induction hypothesis, then revisit `n`.
          have hops : ∀ m ∈ (g.operands n).filter (fun c => (lookupV calls c).isNone),
              m < n := by
            intro m hm
            have hmem := (List.mem_filter.mp hm).1
            rcases hd : g.nodes.get? n with _ | d
            · rw [Graph.operands, hd] at hmem
              simp at hmem
            · rw [Graph.operands, hd] at hmem
              exact hwf n d hd m hmem
          obtain ⟨f₁, a₁, hrun₁, hbd₁, hm₁⟩ :=
            runList g fn kw ((g.operands n).filter (fun c => (lookupV calls c).isNone))
              (fun m hm => ih m (hops m hm)) (n :: stack) calls
          have hbelow : ∀ c ∈ a₁, c.node < n := by
            intro c hc
            obtain ⟨m, hm, hle⟩ := hbd₁ c hc
            exact Nat.lt_of_le_of_lt hle (hops m hm)
          have hnotn : lookupV (a₁ ++ calls) n = none := by
            rw [lookupV_eq_none_iff]
            intro c hc
            rcases List.mem_append.mp hc with hc | hc
            · exact Nat.ne_of_lt (hbelow c hc)
            · intro hcn
              exact hv ((lookupV_isSome_iff calls n).mpr ⟨c, hc, hcn⟩)
          have hready : ((g.operands n).all
              (fun c => (lookupV (a₁ ++ calls) c).isSome)) = true := by
            rw [List.all_eq_true]
            intro m hm
            by_cases hmv : (lookupV calls m).isSome = true
            · exact lookupV_append_isSome a₁ hmv
            · refine hm₁ m (List.mem_filter.mpr ⟨hm, ?_⟩)
              rw [Option.isNone_iff_eq_none, ← Option.not_isSome_iff_eq_none]
              simpa using hmv
          obtain ⟨r, hfnr⟩ := hfn n ((g.operands n).filterMap (lookupV (a₁ ++ calls)))
          refine ⟨1 + f₁ + 1,
            ⟨n, (g.operands n).filterMap (lookupV (a₁ ++ calls)), kw, r⟩ :: a₁, ?_, ?_, ?_⟩
          · intro rest
            have hstep1 : (1 : Nat) + f₁ + 1 + rest = (f₁ + (1 + rest)) + 1 := by omega
            rw [hstep1, pvLoop, if_neg hv, if_neg hr]
            have h1 := hrun₁ (1 + rest)
            rw [h1]
            have hstep2 : (1 : Nat) + rest = rest + 1 := Nat.add_comm 1 rest
            rw [hstep2, pvLoop, if_neg (by simpa using hnotn), if_pos hready, hfnr]
            rfl
          · intro c hc
            rcases List.mem_cons.mp hc with rfl | hc
            · exact Nat.le_refl n
            · exact Nat.le_of_lt (hbelow c hc)
          · rw [List.cons_append, lookupV, if_pos rfl]
            rfl

/-- Termination and completion on well-formed arenas: for every root there
is enough fuel to drain the stack, and the root is then memoized. -/
theorem pvLoop_terminates {R K : Type} (g : Graph)
    (fn : Nat → List R → K → Except PyError R) (kw : K)
    (hwf : g.Wf) (hfn : ∀ n args, ∃ r, fn n args kw = .ok r) (root : Nat) :
    ∃ fuel calls, pvLoop g fn kw fuel [root] [] = some (.ok calls) ∧
      (lookupV calls root).isSome = true ∧ (∀ c ∈ calls, c.node ≤ root) := by
  obtain ⟨f, added, hrun, hbd, hmem⟩ := runFrom g fn kw hwf hfn root [] []
  refine ⟨f + 0, added, ?_, ?_, ?_⟩
  · rw [hrun 0, pvLoop]
    simp
  · simpa using hmem
  · exact hbd

/-
The right-leaning Add chain of the depth-robustness test.
-/

theorem chainNodes_length (n : Nat) : (chainNodes n).length = 2 * n + 1 := by
  induction n with
  | zero => rfl
  | succ n ih =>
      rw [chainNodes, List.length_append, ih]
      simp
      omega

theorem chainNodes_get (N : Nat) :
    ∀ i ≤ 2 * N, (chainNodes N).get? i = some (chainData i) := by
  induction N with
  | zero =>
      intro i hi
      interval_cases i
      rfl
  | succ N ih =>
      intro i hi
      rw [chainNodes]
      by_cases hle : i ≤ 2 * N
      · rw [List.get?_append (by rw [chainNodes_length]; omega)]
        exact ih i hle
      · have hlen : (chainNodes N).length = 2 * N + 1 := chainNodes_length N
        rcases Nat.lt_or_ge i (2 * N + 2) with hlt | hge
        · have hieq : i = 2 * N + 1 := by omega
          subst hieq
          rw [List.get?_append_right (by omega)]
          have hz : 2 * N + 1 - (chainNodes N).length = 0 := by omega
          rw [hz]
          have hdata : chainData (2 * N + 1) = .number (.intV 1) := by
            rw [chainData, if_neg]
            intro hand
            omega
          rw [hdata]
          rfl
        · have hieq : i = 2 * N + 2 := by omega
          subst hieq
          rw [List.get?_append_right (by omega)]
          have hz : 2 * N + 2 - (chainNodes N).length = 1 := by omega
          rw [hz]
          have hdata : chainData (2 * N + 2) = .op .add (2 * N + 1) (2 * N) := by
            rw [chainData, if_pos (by omega)]
            norm_num
          rw [hdata]
          rfl

theorem chainGraph_wf (N : Nat) : (chainGraph N).Wf := by
  intro n d hd c hc
  have hn : n ≤ 2 * N := by
    by_contra hgt
    have hnone : (chainGraph N).nodes.get? n = none := by
      rw [List.get?_eq_none]
      show (chainNodes N).length ≤ n
      rw [chainNodes_length]
      omega
    rw [hd] at hnone
    exact absurd hnone (by simp)
  have hdata : d = chainData n := by
    have hget := chainNodes_get N n hn
    rw [show (chainGraph N).nodes = chainNodes N from rfl] at hd
    rw [hd] at hget
    exact Option.some_injective _ hget
  subst hdata
  rw [chainData] at hc
  by_cases hcase : n % 2 = 0 ∧ n ≠ 0
  · rw [if_pos hcase] at hc
    simp only [NodeData.childIds] at hc
    rcases List.mem_cons.mp hc with rfl | hc
    · omega
    · rcases List.mem_singleton.mp hc with rfl
      omega
  · rw [if_neg hcase] at hc
    simp only [NodeData.childIds] at hc
    exact absurd hc (List.not_mem_nil c)

theorem chainGraph_operands (N : Nat) {i : Nat} (hi : i ≤ 2 * N) :
    (chainGraph N).operands i = (chainData i).childIds := by
  rw [Graph.operands]
  rw [show (chainGraph N).nodes = chainNodes N from rfl, chainNodes_get N i hi]

/-- In a coherent memo table for the chain, every recorded result is the
expected chain value: `1` at leaves, `k + 1` at the Add node `2k`. -/
theorem chain_results (N : Nat) :
    ∀ calls : List (Call Int Unit),
      Coherent (chainGraph N) (evalFn (chainGraph N)) () calls →
      ∀ c ∈ calls, c.node ≤ 2 * N → c.result = chainVal c.node := by
  intro calls
  induction calls with
  | nil => intro _ c hc; exact absurd hc (List.not_mem_nil c)
  | cons c older ih =>
      intro hco d hd hdN
      obtain ⟨hkw, hnone, hargs, hfn, holder⟩ := hco
      rcases List.mem_cons.mp hd with rfl | hd
      · -- the head call: its node data decides the computation
        obtain ⟨dn, dargs, dkw, dres⟩ := d
        simp only at hkw hnone hargs hfn hdN ⊢
        simp only [evalFn] at hfn
        have hres : dres = evalNode (chainGraph N) dn dargs := (Except.ok.inj hfn).symm
        have hget : (chainGraph N).nodes.get? dn = some (chainData dn) :=
          chainNodes_get N dn hdN
        by_cases hcase : dn % 2 = 0 ∧ dn ≠ 0
        · -- an Add node 2k with k at least 1
          have hdata : chainData dn = .op .add (dn - 1) (dn - 2) := by
            rw [chainData, if_pos hcase]
          rw [hdata] at hget
          have hops : (chainGraph N).operands dn = [dn - 1, dn - 2] := by
            rw [chainGraph_operands N hdN, hdata]
            rfl
          rw [hops] at hargs
          rcases hargs with _ | ⟨h1, htail⟩
          rcases htail with _ | ⟨h2, htail⟩
          rcases htail
          obtain ⟨c1, hc1, hc1n, hc1r⟩ := lookupV_mem h1
          obtain ⟨c2, hc2, hc2n, hc2r⟩ := lookupV_mem h2
          have e1 := ih holder c1 hc1 (by omega)
          have e2 := ih holder c2 hc2 (by omega)
          rw [hc1n] at e1
          rw [hc2n] at e2
          rw [hres]
          simp only [evalNode, hget, applyOp]
          rw [← hc1r, ← hc2r, e1, e2]
          rw [chainVal, chainVal, chainVal]
          rw [if_pos (by omega), if_neg (by omega), if_neg (by omega)]
          push_cast
          omega
        · -- a Number(1) leaf (odd index or index 0)
          have hdata : chainData dn = .number (.intV 1) := by
            rw [chainData, if_neg hcase]
          rw [hdata] at hget
          rw [hres]
          simp only [evalNode, hget]
          rcases Nat.mod_two_eq_zero_or_one dn with h2 | h2
          · have hz : dn = 0 := by tauto
            subst hz
            rfl
          · rw [chainVal, if_pos h2]
      · exact ih holder d hd hdN

theorem Coherent.kw_eq {R K : Type} {g : Graph} {fn : Nat → List R → K → Except PyError R}
    {kw : K} : ∀ {calls : List (Call R K)}, Coherent g fn kw calls →
      ∀ c ∈ calls, c.kw = kw := by
  intro calls
  induction calls with
  | nil => intro _ c hc; exact absurd hc (List.not_mem_nil c)
  | cons c older ih =>
      intro hco d hd
      rcases List.mem_cons.mp hd with rfl | hd
      · exact hco.1
      · exact ih hco.2.2.2.2 d hd

theorem Coherent.fn_ok {R K : Type} {g : Graph} {fn : Nat → List R → K → Except PyError R}
    {kw : K} : ∀ {calls : List (Call R K)}, Coherent g fn kw calls →
      ∀ c ∈ calls, fn c.node c.args kw = .ok c.result := by
  intro calls
  induction calls with
  | nil => intro _ c hc; exact absurd hc (List.not_mem_nil c)
  | cons c older ih =>
      intro hco d hd
      rcases List.mem_cons.mp hd with rfl | hd
      · exact hco.1 ▸ hco.2.2.2.1
      · exact ih hco.2.2.2.2 d hd

/-- Executable sufficient condition for arena well-formedness. -/
theorem Graph.wf_of_wfCheck {g : Graph} (h : g.wfCheck = true) : g.Wf := by
  intro n d hd c hc
  have hn : n < g.nodes.length := by
    by_contra hge
    rw [List.get?_eq_none.mpr (by omega)] at hd
    exact absurd hd (by simp)
  rw [Graph.wfCheck, List.all_eq_true] at h
  have hall := h n (List.mem_range.mpr hn)
  rw [List.all_eq_true] at hall
  have hmem : c ∈ g.operands n := by
    rw [Graph.operands, hd]
    exact hc
  simpa using hall c hmem

/-- The only error outcome of the loop is an exception some `fn`
invocation produced, returned unchanged. -/
theorem pvLoop_error_src {R K : Type} (g : Graph) (fn : Nat → List R → K → Except PyError R)
    (kw : K) :
    ∀ fuel stack calls e, pvLoop g fn kw fuel stack calls = some (.error e) →
      ∃ n args, fn n args kw = .error e := by
  intro fuel
  induction fuel with
  | zero =>
      intro stack calls e h
      match stack with
      | [] => rw [pvLoop] at h; exact absurd h (by simp)
      | n :: stack => rw [pvLoop] at h; exact absurd h (by simp)
  | succ fuel ih =>
      intro stack calls e h
      match stack with
      | [] => rw [pvLoop] at h; exact absurd h (by simp)
      | n :: stack =>
          rw [pvLoop] at h
          by_cases hv : (lookupV calls n).isSome = true
          · rw [if_pos hv] at h
            exact ih stack calls e h
          · rw [if_neg hv] at h
            by_cases hr : ((g.operands n).all (fun c => (lookupV calls c).isSome)) = true
            · rw [if_pos hr] at h
              rcases hfn : fn n ((g.operands n).filterMap (lookupV calls)) kw with e' | r
              · rw [hfn] at h
                have : e' = e := by
                  have := Option.some_injective _ h
                  exact Except.error.inj this
                exact ⟨n, _, this ▸ hfn⟩
              · rw [hfn] at h
                exact ih _ _ _ h
            · rw [if_neg hr] at h
              exact ih _ _ _ h

/-
The ten claims.
-/

/-- C1: a single `postvisitor` traversal passes each distinct node (by
identity) to `fn` at most once, even when reachable via multiple paths:
any completed traversal records a duplicate-free list of combined
identities.  Concretely, for `s = Number(5) + Number(1)` shared as both
operands of `Mul(s, s)`, the recorded calls (the external counter of the
test) mention `s` (identity 2) exactly once while the result is `36`;
and the two structurally equal but distinct `Number(5)` leaves of
`gTwin` are each combined once, independently. -/
theorem claim_C1_dedup :
    (∀ (R K : Type) (g : Graph) (fn : Nat → List R → K → Except PyError R) (kw : K)
        (root fuel : Nat) (calls : List (Call R K)),
        pvLoop g fn kw fuel [root] [] = some (.ok calls) →
        (calls.map (fun c => c.node)).Nodup) ∧
    (∃ calls : List (Call Int Unit),
        postvisitorCalls gShared (evalFn gShared) () 3 10 = some (.ok calls) ∧
        (calls.map (fun c => c.node)).count 2 = 1 ∧
        postvisitor gShared (evalFn gShared) () 3 10 = some (.ok 36)) ∧
    (∃ calls : List (Call Int Unit),
        postvisitorCalls gTwin (evalFn gTwin) () 2 10 = some (.ok calls) ∧
        (calls.map (fun c => c.node)).count 0 = 1 ∧
        (calls.map (fun c => c.node)).count 1 = 1 ∧
        postvisitor gTwin (evalFn gTwin) () 2 10 = some (.ok 10)) := by
  refine ⟨?_, ?_, ?_⟩
  · intro R K g fn kw root fuel calls h
    exact Coherent.nodup (pvLoop_coherent g fn kw fuel [root] [] calls h trivial)
  · exact ⟨[⟨3, [6, 6], (), 36⟩, ⟨2, [5, 1], (), 6⟩, ⟨1, [], (), 1⟩, ⟨0, [], (), 5⟩],
      rfl, rfl, rfl⟩
  · exact ⟨[⟨2, [5, 5], (), 10⟩, ⟨1, [], (), 5⟩, ⟨0, [], (), 5⟩], rfl, rfl, rfl, rfl⟩

/-- Witness for C1: the general dedup part applied to the concrete shared
run. -/
theorem claim_C1_dedup_witness :
    (([⟨3, [6, 6], (), 36⟩, ⟨2, [5, 1], (), 6⟩, ⟨1, [], (), 1⟩, ⟨0, [], (), 5⟩] :
        List (Call Int Unit)).map (fun c => c.node)).Nodup :=
  claim_C1_dedup.1 Int Unit gShared (evalFn gShared) () 3 10 _ rfl

/-- C2: a completed traversal of any acyclic graph computes, for the root,
the value `fn` produces from the cached operand results; the memo table is
coherent (each call used the operands' already-computed results, in
operand order, computed strictly earlier, with the keyword arguments
threaded unchanged); no node is combined twice; and every call's
positional arguments are exactly the unique cached results of its
operands. -/
theorem claim_C2_fold :
    ∀ (R K : Type) (g : Graph) (fn : Nat → List R → K → Except PyError R) (kw : K)
      (root fuel : Nat) (calls : List (Call R K)),
      g.Wf → root < g.nodes.length →
      pvLoop g fn kw fuel [root] [] = some (.ok calls) →
      (∃ r, lookupV calls root = some r ∧ postvisitor g fn kw root fuel = some (.ok r)) ∧
      Coherent g fn kw calls ∧
      (∀ (pre post : List (Call R K)) (c : Call R K), calls = pre ++ c :: post →
        ∀ o ∈ g.operands c.node, (lookupV post o).isSome = true) ∧
      (calls.map (fun c => c.node)).Nodup ∧
      (∀ c ∈ calls, c.kw = kw ∧
        List.Forall₂ (fun o a => lookupV calls o = some a) (g.operands c.node) c.args ∧
        fn c.node c.args kw = .ok c.result) := by
  intro R K g fn kw root fuel calls _ _ h
  have hcoh : Coherent g fn kw calls := pvLoop_coherent g fn kw fuel [root] [] calls h trivial
  refine ⟨?_, hcoh, ?_, Coherent.nodup hcoh, ?_⟩
  · have hmem : (lookupV calls root).isSome = true :=
      pvLoop_stack_isSome g fn kw fuel [root] [] calls h root (List.mem_singleton.mpr rfl)
    obtain ⟨r, hr⟩ := Option.isSome_iff_exists.mp hmem
    refine ⟨r, hr, ?_⟩
    rw [postvisitor, h]
    show Option.map Except.ok (lookupV calls root) = some (.ok r)
    rw [hr]
    rfl
  · intro pre post c hdec o ho
    exact Coherent.operands_earlier hcoh hdec o ho
  · intro c hc
    exact ⟨Coherent.kw_eq hcoh c hc, Coherent.args_cached hcoh c hc,
      Coherent.fn_ok hcoh c hc⟩

/-- Witness for C2: the theorem applied to the `2 + 3 * 4` run. -/
theorem claim_C2_fold_witness :
    ∃ r : Int, lookupV ([⟨4, [2, 12], (), 14⟩, ⟨3, [3, 4], (), 12⟩, ⟨2, [], (), 4⟩,
        ⟨1, [], (), 3⟩, ⟨0, [], (), 2⟩] : List (Call Int Unit)) 4 = some r ∧
      postvisitor g238 (evalFn g238) () 4 12 = some (.ok r) :=
  (claim_C2_fold Int Unit g238 (evalFn g238) () 4 12 _
    (Graph.wf_of_wfCheck rfl) (by decide) rfl).1

/-- C3 counterexample: the right-leaning chain with `N = 1` Add node over
`Number(1)` evaluates to `2`, not `1` — the chain with `N` Add nodes has
`N + 1` leaves of value `1`, so the claimed return value `N` is off by
one. -/
theorem claim_C3_counterexample :
    postvisitor (chainGraph 1) (evalFn (chainGraph 1)) () (2 * 1) 10 = some (.ok 2) ∧
    (2 : Int) ≠ (1 : Int) := ⟨rfl, by decide⟩

/-- C3 as amended: for every `N`, the right-leaning chain of `N` nested
Add nodes over `Number(1)` is traversed to completion by the explicit
work-stack loop with some finite fuel, returning `N + 1`. -/
theorem claim_C3_depth :
    ∀ N : Nat, ∃ fuel : Nat,
      postvisitor (chainGraph N) (evalFn (chainGraph N)) () (2 * N) fuel =
        some (.ok ((N : Int) + 1)) := by
  intro N
  obtain ⟨fuel, calls, hrun, hsome, hbd⟩ :=
    pvLoop_terminates (chainGraph N) (evalFn (chainGraph N)) () (chainGraph_wf N)
      (fun n args => ⟨evalNode (chainGraph N) n args, rfl⟩) (2 * N)
  refine ⟨fuel, ?_⟩
  have hcoh : Coherent (chainGraph N) (evalFn (chainGraph N)) () calls :=
    pvLoop_coherent _ _ _ fuel [2 * N] [] calls hrun trivial
  obtain ⟨r, hr⟩ := Option.isSome_iff_exists.mp hsome
  obtain ⟨c, hc, hcn, hcr⟩ := lookupV_mem hr
  have hval : c.result = chainVal c.node := chain_results N calls hcoh c hc (hcn ▸ hbd c hc)
  have hrval : r = (N : Int) + 1 := by
    rw [← hcr, hval, hcn, chainVal, if_neg (by omega)]
    have h2 : 2 * N / 2 = N := by omega
    rw [h2]
  rw [postvisitor, hrun]
  show Option.map Except.ok (lookupV calls (2 * N)) = some (.ok ((N : Int) + 1))
  rw [hr, hrval]
  rfl

/-- C4 counterexample: `Number` applied to a text payload raises the
`ValueError` of the source, which is not a Python `TypeError`; likewise
`Symbol` applied to a numeric payload. -/
theorem claim_C4_counterexample :
    Number (.strV ("text")) = .error (.valueError ("Number value must be a numeric type.")) ∧
    PyError.isTypeError (.valueError ("Number value must be a numeric type.")) = false ∧
    Symbol (.intV 5) = .error (.valueError ("Symbol value must be a string.")) ∧
    PyError.isTypeError (.valueError ("Symbol value must be a string.")) = false :=
  ⟨rfl, rfl, rfl, rfl⟩

/-- C4 as amended: for every non-numeric payload, `Number` construction
fails synchronously with the source's `ValueError` (producing no node),
and for every non-text payload `Symbol` construction fails likewise. -/
theorem claim_C4_type_rejection :
    ∀ v : PyVal,
      (v.isNumeric = false →
        Number v = .error (.valueError ("Number value must be a numeric type."))) ∧
      (v.isStr = false →
        Symbol v = .error (.valueError ("Symbol value must be a string."))) := by
  intro v
  constructor
  · intro h
    rw [Number, h]
    rfl
  · intro h
    cases v with
    | strV s => exact absurd h (by rw [PyVal.isStr]; simp)
    | intV i => rfl
    | boolV b => rfl
    | floatV d => rfl
    | noneV => rfl

/-- Witness for C4: text payload to `Number`, numeric payload to
`Symbol`. -/
theorem claim_C4_type_rejection_witness :
    Number (.strV ("abc")) = .error (.valueError ("Number value must be a numeric type.")) ∧
    Symbol (.intV 7) = .error (.valueError ("Symbol value must be a string.")) :=
  ⟨(claim_C4_type_rejection (.strV ("abc"))).1 rfl,
    (claim_C4_type_rejection (.intV 7)).2 rfl⟩

/-- C5: for every node `a` and numeric raw value `k`, each forward dunder
method wraps `k` into a Number node on the right, and each reversed
dunder method produces the matching Operator kind with mathematically
correct operand order — `Sub`, `Div`, `Pow` put `Number(k)` on the left,
while the commutative `Add` and `Mul` reversed forms reuse the forward
form (operands swapped). -/
theorem claim_C5_symmetry :
    ∀ (a : Expression) (k : PyVal), k.isNumeric = true →
      a.add (.raw k) = .ok (Add a (.number k)) ∧
      a.radd k = .ok (Add a (.number k)) ∧
      a.sub (.raw k) = .ok (Sub a (.number k)) ∧
      a.rsub k = .ok (Sub (.number k) a) ∧
      a.mul (.raw k) = .ok (Mul a (.number k)) ∧
      a.rmul k = .ok (Mul a (.number k)) ∧
      a.truediv (.raw k) = .ok (Div a (.number k)) ∧
      a.rtruediv k = .ok (Div (.number k) a) ∧
      a.pow (.raw k) = .ok (Pow a (.number k)) ∧
      a.rpow k = .ok (Pow (.number k) a) := by
  intro a k hk
  have hnum : Number k = .ok (.number k) := by
    rw [Number, hk]
    rfl
  refine ⟨?_, ?_, ?_, ?_, ?_, ?_, ?_, ?_, ?_, ?_⟩ <;>
    simp [Expression.add, Expression.radd, Expression.sub, Expression.rsub,
      Expression.mul, Expression.rmul, Expression.truediv, Expression.rtruediv,
      Expression.pow, Expression.rpow, coerceOperand, Except.map, hnum]

/-- Witness for C5: `x + 5` and `5 - x` with `x` a Symbol node. -/
theorem claim_C5_symmetry_witness :
    (Expression.symbol ("x")).radd (.intV 5) =
      .ok (Add (.symbol ("x")) (.number (.intV 5))) ∧
    (Expression.symbol ("x")).rsub (.intV 5) =
      .ok (Sub (.number (.intV 5)) (.symbol ("x"))) :=
  ⟨(claim_C5_symmetry (.symbol ("x")) (.intV 5) rfl).2.1,
    (claim_C5_symmetry (.symbol ("x")) (.intV 5) rfl).2.2.2.1⟩

/-- C6: an Operator renders each child, parenthesized iff the child's
precedence is strictly lower than the parent's, joined with single spaces
around the operator symbol; Terminals render as the plain textual form of
their payload, have maximal (infinite) precedence, and are therefore
never parenthesized. -/
theorem claim_C6_rendering :
    (∀ (k : OpKind) (l r : Expression),
      Expression.str (.operator k l r) =
        (if (Expression.precedence l).lt (.fin k.precedence)
          then ("(") ++ Expression.str l ++ (")") else Expression.str l)
        ++ (" ") ++ k.symbol ++ (" ") ++
        (if (Expression.precedence r).lt (.fin k.precedence)
          then ("(") ++ Expression.str r ++ (")") else Expression.str r)) ∧
    (∀ v : PyVal, Expression.str (.number v) = v.pyStr) ∧
    (∀ s : String, Expression.str (.symbol s) = s) ∧
    (∀ e : Expression, e.isTerminal = true → Expression.precedence e = .inf) ∧
    (∀ (e : Expression) (k : OpKind), e.isTerminal = true →
      (Expression.precedence e).lt (.fin k.precedence) = false) := by
  refine ⟨fun k l r => rfl, fun v => rfl, fun s => rfl, ?_, ?_⟩
  · intro e he
    cases e with
    | number v => rfl
    | symbol s => rfl
    | operator k l r => exact absurd he (by rw [Expression.isTerminal]; simp)
  · intro e k he
    cases e with
    | number v => rfl
    | symbol s => rfl
    | operator k' l r => exact absurd he (by rw [Expression.isTerminal]; simp)

/-- Witness for C6: a Number terminal has infinite precedence and is not
parenthesized under a Pow parent. -/
theorem claim_C6_rendering_witness :
    Expression.precedence (.number (.intV 1)) = .inf ∧
    (Expression.precedence (.number (.intV 1))).lt (.fin OpKind.pow.precedence) = false :=
  ⟨claim_C6_rendering.2.2.2.1 (.number (.intV 1)) rfl,
    claim_C6_rendering.2.2.2.2 (.number (.intV 1)) .pow rfl⟩

/-- C7 counterexample: the node built as `Pow(Pow(x, y), z)` renders as
`x ^ y ^ z` — the strictly-lower-precedence rule inserts no parentheses
between equal precedences — not as the claimed `(x ^ y) ^ z`. -/
theorem claim_C7_counterexample :
    Expression.str (Pow (Pow (.symbol ("x")) (.symbol ("y"))) (.symbol ("z"))) =
      ("x ^ y ^ z") ∧
    ("x ^ y ^ z" : String) ≠ ("(x ^ y) ^ z") := ⟨rfl, by decide⟩

/-- C7 as amended: `(x + y) * z` renders exactly as `(x + y) * z`,
`x * y + z` renders without redundant parentheses, `Pow(x, Pow(y, z))`
renders as `x ^ y ^ z`, and `Pow(Pow(x, y), z)` also renders as
`x ^ y ^ z` (equal precedence is never parenthesized). -/
theorem claim_C7_precedence_rendering :
    Expression.str (Mul (Add (.symbol ("x")) (.symbol ("y"))) (.symbol ("z"))) =
      ("(x + y) * z") ∧
    Expression.str (Add (Mul (.symbol ("x")) (.symbol ("y"))) (.symbol ("z"))) =
      ("x * y + z") ∧
    Expression.str (Pow (.symbol ("x")) (Pow (.symbol ("y")) (.symbol ("z")))) =
      ("x ^ y ^ z") ∧
    Expression.str (Pow (Pow (.symbol ("x")) (.symbol ("y"))) (.symbol ("z"))) =
      ("x ^ y ^ z") := ⟨rfl, rfl, rfl, rfl⟩

/-- C8: visiting `Number(2) + Number(3) * Number(4)` with the arithmetic
combining function yields `14`. -/
theorem claim_C8_evaluation :
    postvisitor g238 (evalFn g238) () 4 12 = some (.ok 14) := rfl

/-- C9: an error raised by the combining function is propagated to the
caller unchanged and immediately — when the loop reaches a ready node on
which `fn` raises, the whole traversal returns exactly that error, no
matter what work remains, and the only error outcome a traversal can have
is one produced by `fn`; concretely, a combining function that raises a
lookup error on the unbound `Symbol(x)` has `KeyError` propagated rather
than a default substituted. -/
theorem claim_C9_propagation :
    (∀ (R K : Type) (g : Graph) (fn : Nat → List R → K → Except PyError R) (kw : K)
        (fuel n : Nat) (stack : List Nat) (calls : List (Call R K)) (e : PyError),
        lookupV calls n = none →
        ((g.operands n).all (fun c => (lookupV calls c).isSome)) = true →
        fn n ((g.operands n).filterMap (lookupV calls)) kw = .error e →
        pvLoop g fn kw (fuel + 1) (n :: stack) calls = some (.error e)) ∧
    (∀ (R K : Type) (g : Graph) (fn : Nat → List R → K → Except PyError R) (kw : K)
        (fuel : Nat) (stack : List Nat) (calls : List (Call R K)) (e : PyError),
        pvLoop g fn kw fuel stack calls = some (.error e) →
        ∃ n args, fn n args kw = .error e) ∧
    postvisitor gSym (evalFnStrict gSym) () 2 10 = some (.error (.keyError ("x"))) := by
  refine ⟨?_, ?_, rfl⟩
  · intro R K g fn kw fuel n stack calls e hv hready hfn
    rw [pvLoop, if_neg (by rw [hv]; simp), if_pos hready, hfn]
  · intro R K g fn kw fuel stack calls e h
    exact pvLoop_error_src g fn kw fuel stack calls e h

/-- Witness for C9: the immediate-abort part applied in the middle of the
`Number(2) + Symbol(x)` traversal, at the ready Symbol node. -/
theorem claim_C9_propagation_witness :
    pvLoop gSym (evalFnStrict gSym) () (7 + 1) [1, 2] ([⟨0, [], (), 2⟩] : List (Call Int Unit)) =
      some (.error (.keyError ("x"))) :=
  claim_C9_propagation.1 Int Unit gSym (evalFnStrict gSym) () 7 1 [2]
    [⟨0, [], (), 2⟩] (.keyError ("x")) rfl rfl rfl

/-- C10: `Number` accepts boolean payloads (Python `bool` being a subclass
of `int`) and stores the payload unchanged; construction succeeds on every
numeric payload and raises exactly when the payload is neither int nor
float (nor bool). -/
theorem claim_C10_bool_payload :
    (∀ b : Bool, Number (.boolV b) = .ok (.number (.boolV b))) ∧
    (∀ v : PyVal, v.isNumeric = true → Number v = .ok (.number v)) ∧
    (∀ v : PyVal, v.isNumeric = false →
      Number v = .error (.valueError ("Number value must be a numeric type."))) := by
  refine ⟨fun b => rfl, ?_, ?_⟩
  · intro v h
    rw [Number, h]
    rfl
  · intro v h
    rw [Number, h]
    rfl

/-- Witness for C10: a boolean payload is accepted and stored, a None
payload is rejected. -/
theorem claim_C10_bool_payload_witness :
    Number (.boolV true) = .ok (.number (.boolV true)) ∧
    Number (.noneV) = .error (.valueError ("Number value must be a numeric type.")) :=
  ⟨claim_C10_bool_payload.1 true, claim_C10_bool_payload.2.2 .noneV rfl⟩

end Expressions
